import Mathlib

/-!
Verification development for the matrix-profile core module
(`matrixprofile/core.py`). Each Python function used by the claims is
shallowly embedded as a Lean definition over exact real numbers (with an
explicit IEEE-style special-value type `FV` where NaN/Infinity propagation
matters), and the claimed properties are proved or refuted about those
definitions.
-/

namespace MPCore

/-! ## BatchPlanner: `generate_batch_jobs`

Python source:
```
batch_size = int(math.ceil(profile_length / n_jobs))
if batch_size == profile_length:
    yield (0, profile_length)
else:
    for i in range(n_jobs):
        start = i * batch_size
        end = (i + 1) * batch_size
        if end > profile_length:
            end = profile_length
        yield (start, end)
```
`math.ceil(profile_length / n_jobs)` on nonnegative integers is the exact
ceiling division, embedded as `(profile_length + n_jobs - 1) / n_jobs`.
The generator is embedded as the list of its yielded pairs. -/
def generate_batch_jobs (profile_length n_jobs : ℕ) : List (ℕ × ℕ) :=
  let batch_size := (profile_length + n_jobs - 1) / n_jobs
  if batch_size = profile_length then
    [(0, profile_length)]
  else
    (List.range n_jobs).map fun i =>
      (i * batch_size,
        if profile_length < (i + 1) * batch_size then profile_length
        else (i + 1) * batch_size)

/-! ## `get_profile_length`

Python source: `return len(ts_a) - m + 1` (the second series `ts_b` is
never read). Python integer arithmetic can go negative, so the result
lives in `ℤ`. -/
def get_profile_length (ts_a ts_b : List ℝ) (m : ℕ) : ℤ :=
  (ts_a.length : ℤ) - m + 1

/-! ## InputValidator: `precheck_series_and_query_1d`

A Python value passed to the validator is embedded by the only features
the code inspects: whether it is array-like (list/tuple/ndarray) and its
dimensionality. -/
inductive PyValue : Type
  | scalar (x : ℝ)
  | array1d (xs : List ℝ)
  | array2d (xss : List (List ℝ))

/-- Embedding of `is_array_like`: true for list/tuple/np.ndarray values. -/
def is_array_like : PyValue → Bool
  | .scalar _ => false
  | .array1d _ => true
  | .array2d _ => true

/-- Embedding of `to_np_array`: returns the value unchanged when it is
array-like, otherwise raises `ValueError('Unable to convert to np.ndarray!')`. -/
def to_np_array (a : PyValue) : Except String PyValue :=
  if is_array_like a then .ok a else .error "Unable to convert to np.ndarray!"

/-- Embedding of `is_one_dimensional`: `a.ndim == 1`. -/
def is_one_dimensional : PyValue → Bool
  | .array1d _ => true
  | _ => false

/-- Embedding of `precheck_series_and_query_1d`: converts both arguments
with `to_np_array` (re-raising with a message naming the argument), then
checks one-dimensionality of each. No length comparison is performed. -/
def precheck_series_and_query_1d (ts query : PyValue) :
    Except String (PyValue × PyValue) :=
  match to_np_array ts with
  | .error _ => .error "Invalid ts value given. Must be array_like!"
  | .ok ts1 =>
    match to_np_array query with
    | .error _ => .error "Invalid query value given. Must be array_like!"
    | .ok query1 =>
      if is_one_dimensional ts1 then
        if is_one_dimensional query1 then .ok (ts1, query1)
        else .error "query must be one dimensional!"
      else .error "ts must be one dimensional!"

/-! ## Floating-point special values

The claims about NaN/Infinity behaviour are stated over `FV`, a real
number extended with the three IEEE-754 special values that numpy
propagates (positive infinity, negative infinity, NaN). Finite
arithmetic is exact real arithmetic; the special-value propagation rules
are those of IEEE-754 binary64 as implemented by numpy (signed zeros are
not tracked; both zeros behave as +0). -/
inductive FV : Type
  | fin (x : ℝ)
  | pinf
  | ninf
  | nan

/-- Embedding of `np.isnan` on a single element. -/
def FV.isNaN : FV → Bool
  | .nan => true
  | _ => false

/-- Embedding of `np.isinf` on a single element. -/
def FV.isInf : FV → Bool
  | .pinf => true
  | .ninf => true
  | _ => false

/-- Embedding of `np.isfinite` on a single element. -/
def FV.isFinite : FV → Bool
  | .fin _ => true
  | _ => false

/-! ## SanitizedSeries: `find_skip_locations`

Python source: for each `i in range(profile_length)`, take the slice
`ts[i:i + window_size]` (which truncates at the end of the list, as the
Python slice does) and mark the position when any element is inf or nan. -/
def find_skip_locations (ts : List FV) (profile_length window_size : ℕ) :
    List Bool :=
  (List.range profile_length).map fun i =>
    ((ts.drop i).take window_size).any fun x => x.isInf || x.isNaN

/-! ## IEEE-754 binary64 special-value arithmetic (numpy semantics)

Finite operands follow exact real arithmetic; the special-value rules are
those of IEEE-754/numpy. Signed zero is not tracked (both zeros act as +0,
which is the only zero the distance-profile pipeline can produce from its
nonnegative standard deviations). -/
noncomputable def fvAdd : FV → FV → FV
  | .fin a, .fin b => .fin (a + b)
  | .fin _, .pinf => .pinf
  | .fin _, .ninf => .ninf
  | .pinf, .fin _ => .pinf
  | .ninf, .fin _ => .ninf
  | .pinf, .pinf => .pinf
  | .ninf, .ninf => .ninf
  | .pinf, .ninf => .nan
  | .ninf, .pinf => .nan
  | .nan, _ => .nan
  | _, .nan => .nan

/-- Floating-point negation (exact; flips infinities, preserves NaN). -/
def fvNeg : FV → FV
  | .fin a => .fin (-a)
  | .pinf => .ninf
  | .ninf => .pinf
  | .nan => .nan

/-- Floating-point subtraction: `a - b = a + (-b)` in IEEE-754. -/
noncomputable def fvSub (a b : FV) : FV := fvAdd a (fvNeg b)

/-- Floating-point multiplication with IEEE-754 special values
(`0 * ±inf = nan`). -/
noncomputable def fvMul : FV → FV → FV
  | .fin a, .fin b => .fin (a * b)
  | .fin a, .pinf => if 0 < a then .pinf else if a < 0 then .ninf else .nan
  | .fin a, .ninf => if 0 < a then .ninf else if a < 0 then .pinf else .nan
  | .pinf, .fin b => if 0 < b then .pinf else if b < 0 then .ninf else .nan
  | .ninf, .fin b => if 0 < b then .ninf else if b < 0 then .pinf else .nan
  | .pinf, .pinf => .pinf
  | .pinf, .ninf => .ninf
  | .ninf, .pinf => .ninf
  | .ninf, .ninf => .pinf
  | .nan, _ => .nan
  | _, .nan => .nan

/-- Floating-point division with IEEE-754 special values
(`x/0` is `±inf` for `x ≠ 0` and `nan` for `x = 0`; `inf/inf = nan`;
finite over infinite is zero). -/
noncomputable def fvDiv : FV → FV → FV
  | .fin a, .fin b =>
      if b = 0 then (if 0 < a then .pinf else if a < 0 then .ninf else .nan)
      else .fin (a / b)
  | .fin _, .pinf => .fin 0
  | .fin _, .ninf => .fin 0
  | .pinf, .fin b => if 0 ≤ b then .pinf else .ninf
  | .ninf, .fin b => if 0 ≤ b then .ninf else .pinf
  | .pinf, .pinf => .nan
  | .pinf, .ninf => .nan
  | .ninf, .pinf => .nan
  | .ninf, .ninf => .nan
  | .nan, _ => .nan
  | _, .nan => .nan

/-- Embedding of `np.sqrt`: NaN on negative finite inputs and on `-inf`. -/
noncomputable def fvSqrt : FV → FV
  | .fin a => if a < 0 then .nan else .fin (Real.sqrt a)
  | .pinf => .pinf
  | .ninf => .nan
  | .nan => .nan

/-! ## DistanceProfileCalculator: `distance_profile`

Python source:
```
distance_profile = (
    2 * (ws - (prod - ws * data_mu * query_mu) / (data_sig * query_sig))
)
with np.errstate(divide='ignore', invalid='ignore'):
    distance_profile = np.sqrt(np.real(distance_profile))
```
All inputs are real-valued float64 arrays/scalars, so `np.real` is the
identity; the `errstate` context only suppresses warnings (numpy never
raises here), which the total function below models. `query_mu` and
`query_sig` are the scalar statistics of the single query window and
broadcast over the profile. -/
noncomputable def distance_profile (prod : List FV) (ws : ℝ)
    (data_mu data_sig : List FV) (query_mu query_sig : FV) : List FV :=
  (List.range prod.length).map fun i =>
    fvSqrt (fvMul (.fin 2)
      (fvSub (.fin ws)
        (fvDiv
          (fvSub (prod.getD i .nan)
            (fvMul (fvMul (.fin ws) (data_mu.getD i .nan)) query_mu))
          (fvMul (data_sig.getD i .nan) query_sig))))

/-! ## ExclusionZoneMasker: `apply_exclusion_zone`

Python source:
```
if exclusion_zone > 0 and not is_join:
    ez_start = np.max([0, index - exclusion_zone])
    ez_end = np.min([data_length - window_size + 1, index + exclusion_zone])
    distance_profile[ez_start:ez_end] = np.inf
return distance_profile
```
The slice assignment follows CPython slice-index semantics for step 1:
a negative bound counts from the end, then both bounds are clamped to
`[0, len]`. -/
def py_slice_index (len : ℕ) (i : ℤ) : ℕ :=
  min ((if i < 0 then i + len else i).toNat) len

/-- Slice assignment `dp[s:e] = np.inf` under CPython slice semantics. -/
def set_slice_inf (dp : List FV) (s e : ℤ) : List FV :=
  let lo := py_slice_index dp.length s
  let hi := py_slice_index dp.length e
  (List.range dp.length).map fun j =>
    if lo ≤ j ∧ j < hi then FV.pinf else dp.getD j FV.nan

def apply_exclusion_zone (exclusion_zone : ℤ) (is_join : Bool)
    (window_size data_length index : ℤ) (dp : List FV) : List FV :=
  if 0 < exclusion_zone ∧ is_join = false then
    set_slice_inf dp (max 0 (index - exclusion_zone))
      (min (data_length - window_size + 1) (index + exclusion_zone))
  else dp

/-! ## RollingStatistics: `rolling_window`, `moving_average`, `moving_std`,
`moving_avg_std`

`rolling_window` produces the strided view whose rows are the sliding
windows; `np.mean(·, -1)` / `np.std(·, -1)` reduce each row. `np.std` is
the population standard deviation: the mean of squared deviations from
the row mean, under a square root. -/
def rolling_window (a : List ℝ) (window : ℕ) : List (List ℝ) :=
  (List.range (a.length - window + 1)).map fun i => (a.drop i).take window

/-- Embedding of `np.mean` on one window. -/
noncomputable def np_mean (l : List ℝ) : ℝ := l.sum / l.length

/-- Embedding of `np.std` on one window (population standard deviation:
denominator `l.length`, not `l.length - 1`). -/
noncomputable def np_std (l : List ℝ) : ℝ :=
  Real.sqrt ((l.map fun x => (x - np_mean l) ^ 2).sum / l.length)

noncomputable def moving_average (a : List ℝ) (window : ℕ) : List ℝ :=
  (rolling_window a window).map np_mean

noncomputable def moving_std (a : List ℝ) (window : ℕ) : List ℝ :=
  (rolling_window a window).map np_std

/-- Modelled from the spec: `cycore.moving_avg_std` (the compiled Cython
module `matrixprofile.cycore` is not present under src/) — per §4.3 a
"combined, numerically-stable single pass" returning the moving average
and the moving population standard deviation, i.e. the pair of the two
rolling statistics computed by `moving_average` and `moving_std`. -/
noncomputable def cycore_moving_avg_std (a : List ℝ) (window : ℕ) :
    List ℝ × List ℝ :=
  (moving_average a window, moving_std a window)

/-- Embedding of `moving_avg_std`: upcasts to float64 (`astype('d')`, the
identity in the exact-real model) and delegates to the cycore kernel. -/
noncomputable def moving_avg_std (a : List ℝ) (window : ℕ) :
    List ℝ × List ℝ :=
  cycore_moving_avg_std a window

/-! ## SlidingDotProduct: `fft_convolve` and `sliding_dot_product`

The float64 FFT pipeline is embedded over exact complex numbers, using
the standard numpy DFT conventions:
`np.fft.fft(a)[k]  = ∑_j a[j] exp(-2πi jk/n)` and
`np.fft.ifft(A)[j] = (1/n) ∑_k A[k] exp(2πi jk/n)`.
With `dftKernel n = exp(2πi/n)`, the forward kernel at `(j,k)` is
`(dftKernel n ^ (j*k))⁻¹` and the inverse kernel is `dftKernel n ^ (j*k)`. -/
noncomputable def dftKernel (n : ℕ) : ℂ :=
  Complex.exp (2 * Real.pi * Complex.I / n)

/-- Embedding of `np.fft.fft` on a complex vector (length preserved). -/
noncomputable def np_fft (l : List ℂ) : List ℂ :=
  (List.range l.length).map fun k =>
    ∑ j in Finset.range l.length, l.getD j 0 * (dftKernel l.length ^ (j * k))⁻¹

/-- Embedding of `np.fft.ifft` on a complex vector (length preserved). -/
noncomputable def np_ifft (l : List ℂ) : List ℂ :=
  (List.range l.length).map fun j =>
    (∑ k in Finset.range l.length, l.getD k 0 * dftKernel l.length ^ (j * k)) /
      (l.length : ℂ)

/-- Embedding of `fft_convolve`. Python source:
```
n = len(ts); m = len(query)
x = np.fft.fft(ts)
y = np.append(np.flipud(query), np.zeros([1, n - m]))
y = np.fft.fft(y)
z = np.fft.ifft(x * y)
return np.real(z[m - 1:n])
```
`np.flipud` is list reversal, `np.append(…, zeros(n-m))` pads with `n - m`
zeros, `x * y` is the element-wise product, and the slice `z[m-1:n]` of the
length-`n` vector `z` keeps indices `m-1, …, n-1` (for the intended domain
`1 ≤ m ≤ n`). -/
noncomputable def fft_convolve (ts query : List ℝ) : List ℝ :=
  let n := ts.length
  let m := query.length
  let x := np_fft (ts.map Complex.ofReal)
  let y := np_fft ((query.reverse ++ List.replicate (n - m) 0).map Complex.ofReal)
  let z := np_ifft (List.zipWith (· * ·) x y)
  ((z.drop (m - 1)).take (n - (m - 1))).map Complex.re

/-- Embedding of `np.convolve(a, b, mode='full')`:
`c[k] = ∑_j a[j] * b[k - j]`, of length `len(a) + len(b) - 1`. -/
noncomputable def np_convolve (a b : List ℝ) : List ℝ :=
  (List.range (a.length + b.length - 1)).map fun k =>
    ∑ j in Finset.range a.length,
      a.getD j 0 * (if j ≤ k then b.getD (k - j) 0 else 0)

/-- Embedding of `sliding_dot_product`. Python source:
```
m = len(query); n = len(ts)
dp = np.convolve(ts, np.flipud(query), mode='full')
return np.real(dp[m - 1:n])
```
`np.real` is the identity on the real-valued convolution; the slice
`dp[m-1:n]` keeps indices `m-1, …, n-1` (for the intended domain
`1 ≤ m ≤ n`). -/
noncomputable def sliding_dot_product (ts query : List ℝ) : List ℝ :=
  let m := query.length
  let n := ts.length
  let dp := np_convolve ts query.reverse
  (dp.drop (m - 1)).take (n - (m - 1))

/-! ### Discrete Fourier transform on `Fin n → ℂ`

Mathematical layer used to relate the two pipelines: the DFT, its
inverse, and the circular convolution, all indexed by `Fin n`. -/
noncomputable def dft (n : ℕ) (x : Fin n → ℂ) (k : Fin n) : ℂ :=
  ∑ j, x j * (dftKernel n ^ (j.val * k.val))⁻¹

noncomputable def idft (n : ℕ) (X : Fin n → ℂ) (j : Fin n) : ℂ :=
  (∑ k, X k * dftKernel n ^ (j.val * k.val)) / (n : ℂ)

noncomputable def circConv (n : ℕ) (x y : Fin n → ℂ) (j : Fin n) : ℂ :=
  ∑ l, x l * y (j - l)

/-! ## Theorems -/

/-- C10: `get_profile_length` returns `len(ts_a) − m + 1` for every pair of
inputs and window `m`; the second series `ts_b` is ignored entirely, so the
profile length for a join depends only on the first series' length and the
window size, even when `ts_b` has a different length. -/
theorem C10_get_profile_length_ignores_ts_b (ts_a ts_b ts_b2 : List ℝ) (m : ℕ) :
    get_profile_length ts_a ts_b m = (ts_a.length : ℤ) - m + 1 ∧
    get_profile_length ts_a ts_b m = get_profile_length ts_a ts_b2 m :=
  ⟨rfl, rfl⟩

/-- C3, counterexample: `generate_batch_jobs 5 10` does not yield the single
range `(0,5)` claimed by the spec; `batch_size = ceil(5/10) = 1 ≠ 5`, so the
general loop runs and yields ten per-index ranges (including degenerate
trailing ones). -/
theorem C3_counterexample :
    generate_batch_jobs 5 10 =
      [(0, 1), (1, 2), (2, 3), (3, 4), (4, 5),
       (5, 5), (6, 5), (7, 5), (8, 5), (9, 5)] ∧
    generate_batch_jobs 5 10 ≠ [(0, 5)] := by
  constructor
  · decide
  · decide

/-- C3, amended: `generate_batch_jobs 5 10` yields the ten ranges
`[(0,1),(1,2),(2,3),(3,4),(4,5),(5,5),(6,5),(7,5),(8,5),(9,5)]` (not a
single range); the general statement stands: whenever the computed
`batch_size = ceil(profile_length/n_jobs)` equals `profile_length`, a single
range `[0, profile_length)` is yielded regardless of `n_jobs`. -/
theorem C3_amended_single_batch :
    generate_batch_jobs 5 10 =
      [(0, 1), (1, 2), (2, 3), (3, 4), (4, 5),
       (5, 5), (6, 5), (7, 5), (8, 5), (9, 5)] ∧
    ∀ profile_length n_jobs : ℕ, 1 ≤ n_jobs →
      (profile_length + n_jobs - 1) / n_jobs = profile_length →
      generate_batch_jobs profile_length n_jobs = [(0, profile_length)] := by
  refine ⟨by decide, ?_⟩
  intro profile_length n_jobs _ h
  simp only [generate_batch_jobs]
  rw [if_pos h]

/-- C3, witness: with `profile_length = 1`, `n_jobs = 3` the computed batch
size `ceil(1/3) = 1` equals the profile length and a single range results. -/
theorem C3_amended_single_batch_witness :
    generate_batch_jobs 1 3 = [(0, 1)] :=
  C3_amended_single_batch.2 1 3 (by norm_num) (by norm_num)

/-- C6, counterexample: a query strictly longer than the series passes
`precheck_series_and_query_1d` without any error — the validator performs
no length comparison, contradicting the claim that it raises for `m > n`. -/
theorem C6_counterexample :
    precheck_series_and_query_1d (.array1d [1, 2]) (.array1d [1, 2, 3]) =
      .ok (.array1d [1, 2], .array1d [1, 2, 3]) ∧
    ([1, 2] : List ℝ).length < ([1, 2, 3] : List ℝ).length := by
  exact ⟨rfl, by simp⟩

/-- C6, amended: `precheck_series_and_query_1d` validates only that each
argument is array-like and one-dimensional, raising an error message naming
the offending argument; it performs no length comparison, so any pair of
one-dimensional inputs — including a query longer than the series — is
accepted unchanged. -/
theorem C6_amended_no_length_check :
    (∀ ts query : List ℝ,
      precheck_series_and_query_1d (.array1d ts) (.array1d query) =
        .ok (.array1d ts, .array1d query)) ∧
    (∀ ts query : PyValue,
      (∃ r, precheck_series_and_query_1d ts query = .ok r) ↔
        (is_one_dimensional ts = true ∧ is_one_dimensional query = true)) ∧
    (∀ (x : ℝ) (query : PyValue),
      precheck_series_and_query_1d (.scalar x) query =
        .error "Invalid ts value given. Must be array_like!") ∧
    (∀ (ts : List ℝ) (y : ℝ),
      precheck_series_and_query_1d (.array1d ts) (.scalar y) =
        .error "Invalid query value given. Must be array_like!") := by
  refine ⟨fun ts query => rfl, ?_, fun x query => rfl, fun ts y => rfl⟩
  intro ts query
  cases ts <;> cases query <;>
    simp [precheck_series_and_query_1d, to_np_array, is_array_like,
      is_one_dimensional]

/-- C6, witness: the no-length-check clause applied to a length-1 series and
a length-2 query. -/
theorem C6_amended_no_length_check_witness :
    precheck_series_and_query_1d (.array1d [1]) (.array1d [1, 2]) =
      .ok (.array1d [1], .array1d [1, 2]) :=
  C6_amended_no_length_check.1 [1] [1, 2]

/-- C7: `find_skip_locations` returns a mask of length `profile_length`
whose position `i` is true iff the window `series[i : i+window_size]`
contains a NaN or ±Infinity element; for an all-finite series no position
is marked. -/
theorem C7_find_skip_locations_spec (ts : List FV)
    (profile_length window_size : ℕ) :
    (find_skip_locations ts profile_length window_size).length =
        profile_length ∧
    (∀ i, i < profile_length →
      ((find_skip_locations ts profile_length window_size).getD i false =
          true ↔
        ∃ x ∈ (ts.drop i).take window_size, (x.isNaN || x.isInf) = true)) ∧
    ((∀ x ∈ ts, x.isFinite = true) →
      ∀ i, i < profile_length →
        (find_skip_locations ts profile_length window_size).getD i false =
          false) := by
  have hlen : (find_skip_locations ts profile_length window_size).length =
      profile_length := by
    simp [find_skip_locations]
  have hget : ∀ i, i < profile_length →
      (find_skip_locations ts profile_length window_size).getD i false =
        ((ts.drop i).take window_size).any fun x => x.isInf || x.isNaN := by
    intro i hi
    rw [List.getD_eq_getElem _ _ (by rw [hlen]; exact hi)]
    simp [find_skip_locations]
  refine ⟨hlen, ?_, ?_⟩
  · intro i hi
    rw [hget i hi, List.any_eq_true]
    constructor
    · rintro ⟨x, hx, hpx⟩
      exact ⟨x, hx, by rw [Bool.or_comm]; exact hpx⟩
    · rintro ⟨x, hx, hpx⟩
      exact ⟨x, hx, by rw [Bool.or_comm]; exact hpx⟩
  · intro hfin i hi
    rw [hget i hi]
    rw [List.any_eq_false]
    intro x hx
    have hmem : x ∈ ts := List.mem_of_mem_drop (List.mem_of_mem_take hx)
    have := hfin x hmem
    cases x <;> simp_all [FV.isFinite, FV.isInf, FV.isNaN]

/-- C7, witness: the mask characterisation evaluated on the singleton
series `[NaN]` with window 1. -/
theorem C7_find_skip_locations_spec_witness :
    (find_skip_locations [FV.nan] 1 1).getD 0 false = true ↔
      ∃ x ∈ (([FV.nan] : List FV).drop 0).take 1, (x.isNaN || x.isInf) = true :=
  (C7_find_skip_locations_spec [FV.nan] 1 1).2.1 0 (by norm_num)

/-- C8: with `is_join = false` and `exclusion_zone > 0` (and a well-formed
center index and window, so that the slice bounds are nonnegative),
`apply_exclusion_zone` sets exactly the entries with index in
`[max(0, index − exclusion_zone), min(data_length − window_size + 1,
index + exclusion_zone))` to `+inf` and leaves every other entry unchanged;
when `is_join = true` or `exclusion_zone ≤ 0` the profile is returned
entirely unchanged; and the spec's concrete example holds. -/
theorem C8_apply_exclusion_zone_spec :
    (∀ (exclusion_zone window_size data_length index : ℤ) (dp : List FV),
      0 < exclusion_zone → 0 ≤ index → window_size ≤ data_length + 1 →
      (apply_exclusion_zone exclusion_zone false window_size data_length
          index dp).length = dp.length ∧
      ∀ j, j < dp.length →
        (apply_exclusion_zone exclusion_zone false window_size data_length
            index dp).getD j .nan =
          if max 0 (index - exclusion_zone) ≤ (j : ℤ) ∧
             (j : ℤ) < min (data_length - window_size + 1)
               (index + exclusion_zone)
          then FV.pinf else dp.getD j .nan) ∧
    (∀ (exclusion_zone window_size data_length index : ℤ) (is_join : Bool)
       (dp : List FV),
      exclusion_zone ≤ 0 ∨ is_join = true →
      apply_exclusion_zone exclusion_zone is_join window_size data_length
        index dp = dp) ∧
    apply_exclusion_zone 2 false 3 12 5 (List.replicate 10 (FV.fin 0)) =
      [FV.fin 0, FV.fin 0, FV.fin 0, FV.pinf, FV.pinf, FV.pinf, FV.pinf,
       FV.fin 0, FV.fin 0, FV.fin 0] := by
  refine ⟨?_, ?_, ?_⟩
  · intro ez ws dl idx dp hez hidx hwd
    have happ : apply_exclusion_zone ez false ws dl idx dp =
        set_slice_inf dp (max 0 (idx - ez))
          (min (dl - ws + 1) (idx + ez)) := by
      rw [apply_exclusion_zone, if_pos ⟨hez, rfl⟩]
    have hlen : (set_slice_inf dp (max 0 (idx - ez))
        (min (dl - ws + 1) (idx + ez))).length = dp.length := by
      simp [set_slice_inf]
    refine ⟨by rw [happ, hlen], ?_⟩
    intro j hj
    rw [happ, List.getD_eq_getElem _ _ (by rw [hlen]; exact hj)]
    simp only [set_slice_inf, List.getElem_map, List.getElem_range]
    have hiff : (py_slice_index dp.length (max 0 (idx - ez)) ≤ j ∧
        j < py_slice_index dp.length (min (dl - ws + 1) (idx + ez))) ↔
        (max 0 (idx - ez) ≤ (j : ℤ) ∧
          (j : ℤ) < min (dl - ws + 1) (idx + ez)) := by
      simp only [py_slice_index]
      rw [if_neg (by omega), if_neg (by omega)]
      omega
    rw [if_congr hiff rfl rfl]
  · intro ez ws dl idx is_join dp h
    rw [apply_exclusion_zone, if_neg]
    rintro ⟨h1, h2⟩
    rcases h with h | h
    · omega
    · rw [h] at h2; exact Bool.noConfusion h2
  · rfl

/-- C8, witness: the characterisation applied at the spec's concrete
example, position 3 (the first masked index). -/
theorem C8_apply_exclusion_zone_spec_witness :
    (apply_exclusion_zone 2 false 3 12 5
        (List.replicate 10 (FV.fin 0))).getD 3 .nan =
      if max 0 (5 - 2 : ℤ) ≤ (3 : ℤ) ∧
         (3 : ℤ) < min ((12 : ℤ) - 3 + 1) (5 + 2)
      then FV.pinf else (List.replicate 10 (FV.fin 0)).getD 3 .nan :=
  ((C8_apply_exclusion_zone_spec.1 2 3 12 5 (List.replicate 10 (FV.fin 0))
    (by norm_num) (by norm_num) (by norm_num)).2 3 (by simp))

/-- C5: for every `profile_length ≥ 1` and `n_jobs ≥ 1` the ranges yielded
by `generate_batch_jobs` cover exactly `[0, profile_length)` (as half-open
intervals, degenerate ranges being empty), are pairwise disjoint with
ascending starts (each range ends no later than the next begins), and the
concrete example `generate_batch_jobs 10 3 = [(0,4),(4,8),(8,10)]` holds. -/
theorem C5_generate_batch_jobs_partition (profile_length n_jobs : ℕ)
    (hpl : 1 ≤ profile_length) (hj : 1 ≤ n_jobs) :
    (∀ x, x < profile_length ↔
      ∃ p ∈ generate_batch_jobs profile_length n_jobs,
        p.1 ≤ x ∧ x < p.2) ∧
    (generate_batch_jobs profile_length n_jobs).Pairwise
      (fun p q => p.1 ≤ q.1 ∧ p.2 ≤ q.1) ∧
    generate_batch_jobs 10 3 = [(0, 4), (4, 8), (8, 10)] := by
  have hj0 : 0 < n_jobs := hj
  have hgen : generate_batch_jobs profile_length n_jobs =
      (if (profile_length + n_jobs - 1) / n_jobs = profile_length then
        [(0, profile_length)]
      else
        (List.range n_jobs).map fun i =>
          (i * ((profile_length + n_jobs - 1) / n_jobs),
            if profile_length <
                (i + 1) * ((profile_length + n_jobs - 1) / n_jobs) then
              profile_length
            else (i + 1) * ((profile_length + n_jobs - 1) / n_jobs))) := rfl
  set b := (profile_length + n_jobs - 1) / n_jobs with hb
  have hcov : profile_length ≤ n_jobs * b := by
    have h1 := Nat.div_add_mod (profile_length + n_jobs - 1) n_jobs
    have h2 := Nat.mod_lt (profile_length + n_jobs - 1) hj0
    rw [← hb] at h1
    omega
  have hbpos : 0 < b := by
    rcases Nat.eq_zero_or_pos b with h | h
    · rw [h, Nat.mul_zero] at hcov; omega
    · exact h
  refine ⟨?_, ?_, by decide⟩
  · intro x
    rw [hgen]
    by_cases hcase : b = profile_length
    · rw [if_pos hcase]
      constructor
      · intro hx
        exact ⟨(0, profile_length), by simp, by simp, hx⟩
      · rintro ⟨p, hp, h1, h2⟩
        simp only [List.mem_singleton] at hp
        subst hp
        exact h2
    · rw [if_neg hcase]
      constructor
      · intro hx
        refine ⟨(x / b * b,
          if profile_length < (x / b + 1) * b then profile_length
          else (x / b + 1) * b), ?_, ?_, ?_⟩
        · refine List.mem_map.mpr ⟨x / b, List.mem_range.mpr ?_, rfl⟩
          exact (Nat.div_lt_iff_lt_mul hbpos).mpr (lt_of_lt_of_le hx hcov)
        · exact Nat.div_mul_le_self x b
        · have hlt : x < (x / b + 1) * b := by
            have h1 := Nat.div_add_mod x b
            have h2 := Nat.mod_lt x hbpos
            have h3 : (x / b + 1) * b = x / b * b + b := by ring
            have h4 : b * (x / b) = x / b * b := by ring
            omega
          by_cases hple : profile_length < (x / b + 1) * b
          · rw [if_pos hple]; exact hx
          · rw [if_neg hple]; exact hlt
      · rintro ⟨p, hp, h1, h2⟩
        rcases List.mem_map.mp hp with ⟨i, hi, rfl⟩
        by_cases hple : profile_length < (i + 1) * b
        · rw [if_pos hple] at h2; exact h2
        · rw [if_neg hple] at h2
          push_neg at hple
          exact lt_of_lt_of_le h2 hple
  · rw [hgen]
    by_cases hcase : b = profile_length
    · rw [if_pos hcase]
      simp
    · rw [if_neg hcase]
      rw [List.pairwise_iff_getElem]
      intro i j hi hj hij
      simp only [List.length_map, List.length_range] at hi hj
      simp only [List.getElem_map, List.getElem_range]
      have hstep : (i + 1) * b ≤ j * b :=
        Nat.mul_le_mul_right b (by omega)
      constructor
      · exact Nat.mul_le_mul_right b (by omega)
      · by_cases hple : profile_length < (i + 1) * b
        · rw [if_pos hple]
          omega
        · rw [if_neg hple]
          exact hstep

/-- C5, witness: the partition theorem instantiated at the spec's concrete
example `(profile_length, n_jobs) = (10, 3)`. -/
theorem C5_generate_batch_jobs_partition_witness :
    generate_batch_jobs 10 3 = [(0, 4), (4, 8), (8, 10)] :=
  (C5_generate_batch_jobs_partition 10 3 (by norm_num) (by norm_num)).2.2

/-- Helper: a list sum as a `Finset.range` sum over `getD`. -/
theorem list_sum_getD (l : List ℝ) :
    l.sum = ∑ j in Finset.range l.length, l.getD j 0 := by
  induction l with
  | nil => simp
  | cons x xs ih =>
    rw [List.sum_cons, List.length_cons, Finset.sum_range_succ']
    simp only [List.getD_cons_succ, List.getD_cons_zero]
    rw [← ih]
    ring

/-- C9: `moving_std` computes, for every valid window position, the
population standard deviation of that window (variance denominator equal to
the window size `w`, not `w − 1`), and `moving_avg_std` on `[1,2,3,4,5]`
with window 3 yields means `[2,3,4]` and standard deviations each equal to
`sqrt(2/3)`. -/
theorem C9_moving_std_population :
    (∀ (a : List ℝ) (w i : ℕ), 1 ≤ w → i + w ≤ a.length →
      (moving_std a w).getD i 0 =
        Real.sqrt ((∑ j in Finset.range w, (a.getD (i + j) 0 -
          (∑ j in Finset.range w, a.getD (i + j) 0) / w) ^ 2) / w)) ∧
    moving_avg_std [1, 2, 3, 4, 5] 3 =
      ([2, 3, 4],
       [Real.sqrt (2 / 3), Real.sqrt (2 / 3), Real.sqrt (2 / 3)]) := by
  constructor
  · intro a w i hw hiw
    set win := (a.drop i).take w with hwin_def
    have hwl : win.length = w := by
      rw [hwin_def]
      simp only [List.length_take, List.length_drop]
      omega
    have hstep1 : (moving_std a w).getD i 0 = np_std win := by
      rw [moving_std, List.getD_eq_getElem _ _
        (by simp [rolling_window]; omega)]
      simp [rolling_window, hwin_def]
    have hwg : ∀ j, j < w → win.getD j 0 = a.getD (i + j) 0 := by
      intro j hj
      rw [List.getD_eq_getElem _ _ (by rw [hwl]; exact hj),
          List.getD_eq_getElem _ _ (show i + j < a.length by omega)]
      simp [hwin_def]
    have hwsum : win.sum = ∑ j in Finset.range w, a.getD (i + j) 0 := by
      rw [list_sum_getD, hwl]
      exact Finset.sum_congr rfl fun j hj => hwg j (Finset.mem_range.mp hj)
    have hmean : np_mean win =
        (∑ j in Finset.range w, a.getD (i + j) 0) / w := by
      rw [np_mean, hwsum, hwl]
    have hmaplen : (win.map fun x => (x - np_mean win) ^ 2).length = w := by
      simp [hwl]
    rw [hstep1, np_std]
    congr 1
    rw [hwl, list_sum_getD, hmaplen]
    congr 1
    refine Finset.sum_congr rfl fun j hj => ?_
    have hj2 := Finset.mem_range.mp hj
    have hx : (win.map fun x => (x - np_mean win) ^ 2).getD j 0 =
        (win.getD j 0 - np_mean win) ^ 2 := by
      rw [List.getD_eq_getElem _ _ (by rw [hmaplen]; exact hj2),
        List.getD_eq_getElem _ _ (by rw [hwl]; exact hj2),
        List.getElem_map]
    rw [hx, hwg j hj2, hmean]
  · have hr : rolling_window [(1 : ℝ), 2, 3, 4, 5] 3 =
        [[1, 2, 3], [2, 3, 4], [3, 4, 5]] := rfl
    have h1 : moving_average [1, 2, 3, 4, 5] 3 = [2, 3, 4] := by
      rw [moving_average, hr]
      norm_num [np_mean]
    have h2 : moving_std [1, 2, 3, 4, 5] 3 =
        [Real.sqrt (2 / 3), Real.sqrt (2 / 3), Real.sqrt (2 / 3)] := by
      rw [moving_std, hr]
      norm_num [np_std, np_mean]
    rw [moving_avg_std, cycore_moving_avg_std, h1, h2]

/-- C9, witness: the population-standard-deviation characterisation
instantiated at the first window of `[1,2,3,4,5]` with window 3. -/
theorem C9_moving_std_population_witness :
    (moving_std [1, 2, 3, 4, 5] 3).getD 0 0 =
      Real.sqrt ((∑ j in Finset.range 3,
        (([1, 2, 3, 4, 5] : List ℝ).getD (0 + j) 0 -
          (∑ j in Finset.range 3,
            ([1, 2, 3, 4, 5] : List ℝ).getD (0 + j) 0) / 3) ^ 2) / 3) :=
  C9_moving_std_population.1 [1, 2, 3, 4, 5] 3 0 (by norm_num) (by norm_num)

/-- C2: at every position `i` whose statistics are finite with
`data_sig[i] ≠ 0` and `query_sig ≠ 0`, `distance_profile` returns exactly
`sqrt(real(2 * (ws − (prod[i] − ws*data_mu[i]*query_mu) /
(data_sig[i]*query_sig))))` — the z-normalized distance formula applied
pointwise, with the (identity) real part taken before the numpy square
root `fvSqrt`. -/
theorem C2_distance_profile_formula (prod data_mu data_sig : List FV)
    (ws qmu qs p mu s : ℝ) (i : ℕ) (hi : i < prod.length)
    (hp : prod.getD i .nan = .fin p) (hmu : data_mu.getD i .nan = .fin mu)
    (hs : data_sig.getD i .nan = .fin s) (hs0 : s ≠ 0) (hq0 : qs ≠ 0) :
    (distance_profile prod ws data_mu data_sig (.fin qmu)
        (.fin qs)).getD i .nan =
      fvSqrt (.fin (2 * (ws - (p - ws * mu * qmu) / (s * qs)))) := by
  have hlen : i < (distance_profile prod ws data_mu data_sig (.fin qmu)
      (.fin qs)).length := by
    simpa [distance_profile] using hi
  rw [List.getD_eq_getElem _ _ hlen]
  simp only [distance_profile, List.getElem_map, List.getElem_range]
  rw [hp, hmu, hs]
  have hdiv : fvDiv
      (fvSub (.fin p) (fvMul (fvMul (.fin ws) (.fin mu)) (.fin qmu)))
      (fvMul (.fin s) (.fin qs)) =
        .fin ((p - ws * mu * qmu) / (s * qs)) := by
    simp only [fvMul, fvSub, fvNeg, fvAdd, fvDiv]
    rw [if_neg (mul_ne_zero hs0 hq0)]
    congr 1
  rw [hdiv]
  simp only [fvMul, fvSub, fvNeg, fvAdd]
  congr 2

/-- C2, witness: the formula instantiated at a singleton profile with
`prod = [5]`, `ws = 3`, zero means and unit standard deviations. -/
theorem C2_distance_profile_formula_witness :
    (distance_profile [.fin 5] 3 [.fin 0] [.fin 1] (.fin 0)
        (.fin 1)).getD 0 .nan =
      fvSqrt (.fin (2 * (3 - ((5 : ℝ) - 3 * 0 * 0) / (1 * 1)))) :=
  C2_distance_profile_formula [.fin 5] [.fin 0] [.fin 1] 3 0 1 5 0 1 0
    (by simp) rfl rfl rfl (by norm_num) (by norm_num)

/-- C4: `distance_profile` is total; when `data_sig[i] = 0` the entry at
position `i` is non-finite (NaN or ±infinity, never an exception), and the
entry at any position `j` depends only on the statistics at `j` — replacing
the standard-deviation array with one agreeing at `j` leaves position `j`
unchanged, so a degenerate position never affects other positions. -/
theorem C4_distance_profile_degenerate
    (prod data_mu data_sig data_sig2 : List FV) (ws : ℝ)
    (query_mu query_sig : FV) (i j : ℕ) (hi : i < prod.length)
    (hzero : data_sig.getD i .nan = .fin 0) (hj : j < prod.length)
    (hagree : data_sig.getD j .nan = data_sig2.getD j .nan) :
    ((distance_profile prod ws data_mu data_sig query_mu
        query_sig).getD i .nan).isFinite = false ∧
    (distance_profile prod ws data_mu data_sig query_mu
        query_sig).getD j .nan =
      (distance_profile prod ws data_mu data_sig2 query_mu
        query_sig).getD j .nan := by
  constructor
  · have hlen : i < (distance_profile prod ws data_mu data_sig query_mu
        query_sig).length := by
      simpa [distance_profile] using hi
    rw [List.getD_eq_getElem _ _ hlen]
    simp only [distance_profile, List.getElem_map, List.getElem_range]
    rw [hzero]
    generalize fvSub (prod.getD i FV.nan)
      (fvMul (fvMul (FV.fin ws) (data_mu.getD i FV.nan)) query_mu) = u
    rcases query_sig with q | _ | _ | _ <;> rcases u with x | _ | _ | _ <;>
        simp only [fvMul, fvDiv, fvSub, fvAdd, fvNeg, fvSqrt, FV.isFinite,
          zero_mul] <;>
      norm_num <;>
      split_ifs <;>
      simp [fvMul, fvSub, fvAdd, fvNeg, fvSqrt, FV.isFinite]
  · have hlen1 : j < (distance_profile prod ws data_mu data_sig query_mu
        query_sig).length := by
      simpa [distance_profile] using hj
    have hlen2 : j < (distance_profile prod ws data_mu data_sig2 query_mu
        query_sig).length := by
      simpa [distance_profile] using hj
    rw [List.getD_eq_getElem _ _ hlen1, List.getD_eq_getElem _ _ hlen2]
    simp only [distance_profile, List.getElem_map, List.getElem_range]
    rw [hagree]

/-- C4, witness: a two-position profile whose first standard deviation is
zero — the first output is non-finite and the second is unaffected by
changing the degenerate entry. -/
theorem C4_distance_profile_degenerate_witness :
    ((distance_profile [.fin 1, .fin 1] 3 [.fin 0, .fin 0]
        [.fin 0, .fin 1] (.fin 0) (.fin 1)).getD 0 .nan).isFinite = false ∧
    (distance_profile [.fin 1, .fin 1] 3 [.fin 0, .fin 0]
        [.fin 0, .fin 1] (.fin 0) (.fin 1)).getD 1 .nan =
      (distance_profile [.fin 1, .fin 1] 3 [.fin 0, .fin 0]
        [.fin 2, .fin 1] (.fin 0) (.fin 1)).getD 1 .nan :=
  C4_distance_profile_degenerate [.fin 1, .fin 1] [.fin 0, .fin 0]
    [.fin 0, .fin 1] [.fin 2, .fin 1] 3 (.fin 0) (.fin 1) 0 1
    (by simp) rfl (by simp) rfl

/-! ### DFT lemmas for C1 -/

/-- The DFT kernel is a primitive `n`-th root of unity. -/
theorem dftKernel_isPrimitiveRoot (n : ℕ) (hn : n ≠ 0) :
    IsPrimitiveRoot (dftKernel n) n :=
  Complex.isPrimitiveRoot_exp n hn

theorem dftKernel_pow_n (n : ℕ) (hn : n ≠ 0) : dftKernel n ^ n = 1 :=
  (dftKernel_isPrimitiveRoot n hn).pow_eq_one

/-- Powers of the kernel only depend on the exponent modulo `n`. -/
theorem dftKernel_pow_mod (n : ℕ) (hn : n ≠ 0) (a : ℕ) :
    dftKernel n ^ (a % n) = dftKernel n ^ a := by
  conv_rhs => rw [← Nat.div_add_mod a n]
  rw [pow_add, pow_mul, dftKernel_pow_n n hn, one_pow, one_mul]

/-- Orthogonality of kernel characters over one period. -/
theorem dftKernel_sum_orth (n : ℕ) (hn : n ≠ 0) (d : ℕ) :
    ∑ k in Finset.range n, dftKernel n ^ (d * k) =
      if n ∣ d then (n : ℂ) else 0 := by
  have hform : ∀ k ∈ Finset.range n,
      dftKernel n ^ (d * k) = (dftKernel n ^ d) ^ k := fun k _ => pow_mul _ d k
  rw [Finset.sum_congr rfl hform]
  by_cases hdvd : n ∣ d
  · obtain ⟨c, rfl⟩ := hdvd
    have h1 : dftKernel n ^ (n * c) = 1 := by
      rw [pow_mul, dftKernel_pow_n n hn, one_pow]
    simp [h1]
  · have h1 : dftKernel n ^ d ≠ 1 := fun h =>
      hdvd (((dftKernel_isPrimitiveRoot n hn).pow_eq_one_iff_dvd d).mp h)
    rw [geom_sum_eq h1, if_neg hdvd]
    have h2 : (dftKernel n ^ d) ^ n = 1 := by
      rw [← pow_mul, mul_comm, pow_mul, dftKernel_pow_n n hn, one_pow]
    rw [h2]
    simp

/-- Kernel powers respect addition in `Fin n`. -/
theorem dftKernel_pow_val_add (n : ℕ) [NeZero n] (a b : Fin n) :
    dftKernel n ^ (a + b).val =
      dftKernel n ^ a.val * dftKernel n ^ b.val := by
  rw [Fin.val_add, dftKernel_pow_mod n (NeZero.ne n), pow_add]

/-- Kernel powers respect multiplication in `Fin n`. -/
theorem dftKernel_pow_val_mul (n : ℕ) [NeZero n] (a b : Fin n) :
    dftKernel n ^ (a * b).val = dftKernel n ^ (a.val * b.val) := by
  rw [Fin.val_mul, dftKernel_pow_mod n (NeZero.ne n)]

/-- Kernel powers turn negation in `Fin n` into inversion. -/
theorem dftKernel_pow_val_neg (n : ℕ) [NeZero n] (a : Fin n) :
    dftKernel n ^ (-a).val = (dftKernel n ^ a.val)⁻¹ := by
  have h : dftKernel n ^ (-a).val * dftKernel n ^ a.val = 1 := by
    rw [← dftKernel_pow_val_add n (-a) a, neg_add_cancel]
    simp
  exact eq_inv_of_mul_eq_one_left h

/-- Orthogonality, indexed by `Fin n`. -/
theorem dftKernel_sum_fin (n : ℕ) [NeZero n] (d : Fin n) :
    ∑ k : Fin n, dftKernel n ^ (d * k).val =
      if d = 0 then (n : ℂ) else 0 := by
  have h1 : ∀ k ∈ Finset.univ, dftKernel n ^ (d * k).val =
      dftKernel n ^ (d.val * k.val) := fun k _ => dftKernel_pow_val_mul n d k
  rw [Finset.sum_congr rfl h1,
    Fin.sum_univ_eq_sum_range (fun i => dftKernel n ^ (d.val * i)) n,
    dftKernel_sum_orth n (NeZero.ne n) d.val]
  by_cases hd : d = 0
  · subst hd
    simp
  · rw [if_neg hd, if_neg]
    intro hdvd
    have hv : d.val = 0 := Nat.eq_zero_of_dvd_of_lt hdvd d.isLt
    exact hd (by apply Fin.ext; simp [hv])

/-- The inverse DFT of the pointwise product of two DFTs is the circular
convolution (numpy normalisation: the `1/n` lives in the inverse
transform). -/
theorem idft_dft_mul (n : ℕ) [NeZero n] (x y : Fin n → ℂ) (j : Fin n) :
    idft n (fun k => dft n x k * dft n y k) j = circConv n x y j := by
  have hexp : ∀ a b k : Fin n,
      (dftKernel n ^ (a.val * k.val))⁻¹ *
        ((dftKernel n ^ (b.val * k.val))⁻¹ *
          dftKernel n ^ (j.val * k.val)) =
        dftKernel n ^ ((j - a - b) * k).val := by
    intro a b k
    rw [show (j - a - b) * k = j * k + -(a * k) + -(b * k) by ring]
    rw [dftKernel_pow_val_add n (j * k + -(a * k)) (-(b * k)),
      dftKernel_pow_val_add n (j * k) (-(a * k)),
      dftKernel_pow_val_neg n (a * k), dftKernel_pow_val_neg n (b * k),
      dftKernel_pow_val_mul n j k, dftKernel_pow_val_mul n a k,
      dftKernel_pow_val_mul n b k]
    ring
  have hn0 : (n : ℂ) ≠ 0 := Nat.cast_ne_zero.mpr (NeZero.ne n)
  have step : ∀ k : Fin n,
      (fun k => dft n x k * dft n y k) k * dftKernel n ^ (j.val * k.val) =
        ∑ a : Fin n, ∑ b : Fin n,
          x a * y b * dftKernel n ^ ((j - a - b) * k).val := by
    intro k
    simp only [dft]
    rw [Finset.sum_mul_sum, Finset.sum_mul]
    refine Finset.sum_congr rfl fun a _ => ?_
    rw [Finset.sum_mul]
    refine Finset.sum_congr rfl fun b _ => ?_
    rw [← hexp a b k]
    ring
  rw [idft, Finset.sum_congr rfl fun k _ => step k]
  rw [Finset.sum_comm]
  have inner : ∀ a : Fin n,
      ∑ k : Fin n, ∑ b : Fin n,
          x a * y b * dftKernel n ^ ((j - a - b) * k).val =
        x a * y (j - a) * n := by
    intro a
    rw [Finset.sum_comm]
    have hb : ∀ b : Fin n,
        ∑ k : Fin n, x a * y b * dftKernel n ^ ((j - a - b) * k).val =
          x a * y b * (if j - a - b = 0 then (n : ℂ) else 0) := by
      intro b
      rw [← Finset.mul_sum, dftKernel_sum_fin n (j - a - b)]
    rw [Finset.sum_congr rfl fun b _ => hb b]
    calc ∑ b : Fin n, x a * y b * (if j - a - b = 0 then (n : ℂ) else 0)
        = ∑ b : Fin n, if b = j - a then x a * y b * n else 0 := by
          refine Finset.sum_congr rfl fun b _ => ?_
          by_cases hcase : b = j - a
          · rw [if_pos (by rw [hcase, sub_self]), if_pos hcase]
          · rw [if_neg (fun h => hcase (sub_eq_zero.mp h).symm),
              if_neg hcase, mul_zero]
      _ = x a * y (j - a) * n := by
          rw [Finset.sum_ite_eq' Finset.univ (j - a)
            (fun b => x a * y b * (n : ℂ))]
          simp
  rw [Finset.sum_congr rfl fun a _ => inner a, circConv, ← Finset.sum_mul,
    mul_div_cancel_right₀ _ hn0]

/-! ### List-level bridging lemmas for C1 -/

theorem np_fft_length (l : List ℂ) : (np_fft l).length = l.length := by
  simp [np_fft]

theorem np_ifft_length (l : List ℂ) : (np_ifft l).length = l.length := by
  simp [np_ifft]

theorem np_fft_getD (l : List ℂ) (n : ℕ) (hl : l.length = n) (k : ℕ)
    (hk : k < n) :
    (np_fft l).getD k 0 =
      ∑ j in Finset.range n, l.getD j 0 * (dftKernel n ^ (j * k))⁻¹ := by
  subst hl
  rw [List.getD_eq_getElem _ _ (by simpa [np_fft] using hk)]
  simp [np_fft]

theorem np_ifft_getD (l : List ℂ) (n : ℕ) (hl : l.length = n) (k : ℕ)
    (hk : k < n) :
    (np_ifft l).getD k 0 =
      (∑ j in Finset.range n, l.getD j 0 * dftKernel n ^ (k * j)) /
        (n : ℂ) := by
  subst hl
  rw [List.getD_eq_getElem _ _ (by simpa [np_ifft] using hk)]
  simp [np_ifft]

theorem zipWith_mul_getD (x y : List ℂ) (n : ℕ) (hx : x.length = n)
    (hy : y.length = n) (k : ℕ) (hk : k < n) :
    (List.zipWith (· * ·) x y).getD k 0 = x.getD k 0 * y.getD k 0 := by
  subst hx
  rw [List.getD_eq_getElem _ _ (by simp [List.length_zipWith]; omega),
    List.getD_eq_getElem _ _ (by omega),
    List.getD_eq_getElem _ _ (by omega)]
  simp

theorem getD_map_ofReal (l : List ℝ) (k : ℕ) (hk : k < l.length) :
    (l.map Complex.ofReal).getD k 0 = Complex.ofReal (l.getD k 0) := by
  rw [List.getD_eq_getElem _ _ (by simpa using hk),
    List.getD_eq_getElem _ _ hk]
  simp

/-- The zero-padded reversed query reads as the reversed query below index
`m = query.length` and as zero above it. -/
theorem padded_getD (query : List ℝ) (pad idx : ℕ) :
    (query.reverse ++ List.replicate pad (0 : ℝ)).getD idx 0 =
      if idx < query.length then query.reverse.getD idx 0 else 0 := by
  by_cases h : idx < query.length
  · rw [if_pos h, List.getD_append _ _ _ _ (by simpa using h)]
  · rw [if_neg h]
    by_cases h2 : idx < query.length + pad
    · rw [List.getD_append_right _ _ _ _ (by simpa using h),
        List.getD_eq_getElem _ _ (by simp; omega)]
      simp
    · rw [List.getD_eq_default _ _ (by simp; omega)]

theorem np_convolve_getD (a b : List ℝ) (k : ℕ)
    (hk : k < a.length + b.length - 1) :
    (np_convolve a b).getD k 0 =
      ∑ j in Finset.range a.length,
        a.getD j 0 * (if j ≤ k then b.getD (k - j) 0 else 0) := by
  rw [List.getD_eq_getElem _ _ (by simpa [np_convolve] using hk)]
  simp [np_convolve]

/-- For every valid output position `K ∈ [m−1, n−1]`, the FFT pipeline's
value at `K` equals (as a complex number) the full linear convolution of
the series with the reversed query at `K`. -/
theorem fft_circ_element (ts query : List ℝ) (hm : 1 ≤ query.length)
    (hmn : query.length ≤ ts.length) (K : ℕ)
    (hK1 : query.length - 1 ≤ K) (hK2 : K < ts.length) :
    (np_ifft (List.zipWith (· * ·) (np_fft (ts.map Complex.ofReal))
        (np_fft ((query.reverse ++
          List.replicate (ts.length - query.length) (0 : ℝ)).map
            Complex.ofReal)))).getD K 0 =
      Complex.ofReal (∑ j in Finset.range ts.length,
        ts.getD j 0 *
          (if j ≤ K then query.reverse.getD (K - j) 0 else 0)) := by
  set n := ts.length with hn
  set m := query.length with hm2
  haveI : NeZero n := ⟨by omega⟩
  set yl := query.reverse ++ List.replicate (n - m) (0 : ℝ) with hyl
  set tsC := ts.map Complex.ofReal with htsC
  set ylC := yl.map Complex.ofReal with hylC
  set X := np_fft tsC with hX
  set Y := np_fft ylC with hY
  set w := List.zipWith (· * ·) X Y with hw
  have htsC_len : tsC.length = n := by rw [htsC, List.length_map, hn]
  have hyl_len : yl.length = n := by
    rw [hyl]
    simp only [List.length_append, List.length_reverse,
      List.length_replicate]
    omega
  have hylC_len : ylC.length = n := by
    rw [hylC, List.length_map]
    exact hyl_len
  have hX_len : X.length = n := by rw [hX, np_fft_length]; exact htsC_len
  have hY_len : Y.length = n := by rw [hY, np_fft_length]; exact hylC_len
  have hw_len : w.length = n := by
    rw [hw, List.length_zipWith, hX_len, hY_len, Nat.min_self]
  set f : Fin n → ℂ := fun a => tsC.getD a.val 0 with hf
  set g : Fin n → ℂ := fun a => ylC.getD a.val 0 with hg
  set kF : Fin n := ⟨K, by omega⟩ with hkF
  have hdftX : ∀ k : Fin n, X.getD k.val 0 = dft n f k := by
    intro k
    rw [hX, np_fft_getD tsC n htsC_len k.val k.isLt, dft,
      ← Fin.sum_univ_eq_sum_range
        (fun j => tsC.getD j 0 * (dftKernel n ^ (j * k.val))⁻¹) n]
  have hdftY : ∀ k : Fin n, Y.getD k.val 0 = dft n g k := by
    intro k
    rw [hY, np_fft_getD ylC n hylC_len k.val k.isLt, dft,
      ← Fin.sum_univ_eq_sum_range
        (fun j => ylC.getD j 0 * (dftKernel n ^ (j * k.val))⁻¹) n]
  have hzK : (np_ifft w).getD K 0 = circConv n f g kF := by
    rw [← idft_dft_mul n f g kF,
      np_ifft_getD w n hw_len K (by omega), idft]
    congr 1
    rw [← Fin.sum_univ_eq_sum_range
      (fun j => w.getD j 0 * dftKernel n ^ (K * j)) n]
    refine Finset.sum_congr rfl fun k _ => ?_
    rw [hw, zipWith_mul_getD X Y n hX_len hY_len k.val k.isLt,
      hdftX k, hdftY k]
  rw [hzK, circConv]
  rw [show Complex.ofReal (∑ j in Finset.range n,
        ts.getD j 0 *
          (if j ≤ K then query.reverse.getD (K - j) 0 else 0)) =
      ∑ j in Finset.range n, Complex.ofReal (ts.getD j 0 *
        (if j ≤ K then query.reverse.getD (K - j) 0 else 0)) from by
      push_cast
      rfl]
  rw [← Fin.sum_univ_eq_sum_range (fun j => Complex.ofReal (ts.getD j 0 *
    (if j ≤ K then query.reverse.getD (K - j) 0 else 0))) n]
  refine Finset.sum_congr rfl fun l _ => ?_
  have hlval := l.isLt
  have hfl : f l = Complex.ofReal (ts.getD l.val 0) := by
    simp only [hf, htsC]
    exact getD_map_ofReal ts l.val (by omega)
  have hsubval : (kF - l).val = (n - l.val + K) % n := by
    rw [Fin.sub_def]
  have hgl : g (kF - l) =
      Complex.ofReal (yl.getD ((n - l.val + K) % n) 0) := by
    simp only [hg, hylC]
    rw [hsubval]
    exact getD_map_ofReal yl ((n - l.val + K) % n)
      (by rw [hyl_len]; exact Nat.mod_lt _ (by omega))
  rw [hfl, hgl, ← Complex.ofReal_mul]
  congr 1
  congr 1
  by_cases hl : l.val ≤ K
  · have hidx : (n - l.val + K) % n = K - l.val := by
      have h1 : n - l.val + K = K - l.val + n := by omega
      rw [h1, Nat.add_mod_right, Nat.mod_eq_of_lt (by omega)]
    rw [hidx, if_pos hl, hyl, padded_getD]
    by_cases h2 : K - l.val < m
    · rw [if_pos (by omega)]
    · rw [if_neg (by omega),
        List.getD_eq_default query.reverse 0
          (by rw [List.length_reverse]; omega)]
  · have hidx : (n - l.val + K) % n = n - l.val + K :=
      Nat.mod_eq_of_lt (by omega)
    rw [hidx, if_neg hl, hyl, padded_getD, if_neg (by omega)]

/-- C1: for every valid pair (`1 ≤ m ≤ n`), the FFT-based sliding dot
product (`fft_convolve`) and the direct-convolution sliding dot product
(`sliding_dot_product`) both return a vector of length `n − m + 1` (the
trailing valid range, indices `m−1` through `n−1` of the full
convolution) and agree element-wise — in the exact-arithmetic embedding
they are equal, hence agree within relative tolerance `1e-6`. -/
theorem C1_fft_convolve_matches_direct (ts query : List ℝ)
    (hm : 1 ≤ query.length) (hmn : query.length ≤ ts.length) :
    (fft_convolve ts query).length = ts.length - query.length + 1 ∧
    (sliding_dot_product ts query).length =
      ts.length - query.length + 1 ∧
    fft_convolve ts query = sliding_dot_product ts query ∧
    ∀ i, |(fft_convolve ts query).getD i 0 -
        (sliding_dot_product ts query).getD i 0| ≤
      (1e-6 : ℝ) * |(sliding_dot_product ts query).getD i 0| := by
  have hyl_len : (query.reverse ++
      List.replicate (ts.length - query.length) (0 : ℝ)).length =
      ts.length := by
    simp only [List.length_append, List.length_reverse,
      List.length_replicate]
    omega
  have hz_len : (np_ifft (List.zipWith (· * ·)
      (np_fft (ts.map Complex.ofReal))
      (np_fft ((query.reverse ++ List.replicate
        (ts.length - query.length) (0 : ℝ)).map Complex.ofReal)))).length =
      ts.length := by
    rw [np_ifft_length, List.length_zipWith, np_fft_length, np_fft_length,
      List.length_map, List.length_map, hyl_len, Nat.min_self]
  have hflen : (fft_convolve ts query).length =
      ts.length - query.length + 1 := by
    simp only [fft_convolve, List.length_map, List.length_take,
      List.length_drop]
    rw [hz_len]
    omega
  have hslen : (sliding_dot_product ts query).length =
      ts.length - query.length + 1 := by
    simp only [sliding_dot_product, List.length_take, List.length_drop,
      np_convolve, List.length_map, List.length_range,
      List.length_reverse]
    omega
  have heq : fft_convolve ts query = sliding_dot_product ts query := by
    apply List.ext_getElem (by rw [hflen, hslen])
    intro i h1 h2
    have hi : i < ts.length - query.length + 1 := by
      rw [hflen] at h1; exact h1
    have hK : query.length - 1 + i < ts.length := by omega
    have hL : (fft_convolve ts query)[i] =
        ((np_ifft (List.zipWith (· * ·) (np_fft (ts.map Complex.ofReal))
          (np_fft ((query.reverse ++ List.replicate
            (ts.length - query.length) (0 : ℝ)).map
              Complex.ofReal)))).getD (query.length - 1 + i) 0).re := by
      simp only [fft_convolve, List.getElem_map, List.getElem_take,
        List.getElem_drop]
      congr 1
      rw [List.getD_eq_getElem _ _ (by rw [hz_len]; exact hK)]
    have hR : (sliding_dot_product ts query)[i] =
        (np_convolve ts query.reverse).getD (query.length - 1 + i) 0 := by
      simp only [sliding_dot_product, List.getElem_take,
        List.getElem_drop]
      rw [List.getD_eq_getElem _ _ (by
        simp only [np_convolve, List.length_map, List.length_range,
          List.length_reverse]
        omega)]
    rw [hL, hR, fft_circ_element ts query hm hmn (query.length - 1 + i)
      (by omega) hK, Complex.ofReal_re,
      np_convolve_getD ts query.reverse (query.length - 1 + i)
        (by rw [List.length_reverse]; omega)]
  refine ⟨hflen, hslen, heq, ?_⟩
  intro i
  rw [heq, sub_self, abs_zero]
  positivity

/-- C1, witness: the equivalence instantiated at `ts = [1,2,3]`,
`query = [4,5]`. -/
theorem C1_fft_convolve_matches_direct_witness :
    (fft_convolve [1, 2, 3] [4, 5]).length = 3 - 2 + 1 ∧
    (sliding_dot_product [1, 2, 3] [4, 5]).length = 3 - 2 + 1 ∧
    fft_convolve [1, 2, 3] [4, 5] = sliding_dot_product [1, 2, 3] [4, 5] ∧
    ∀ i, |(fft_convolve [1, 2, 3] [4, 5]).getD i 0 -
        (sliding_dot_product [1, 2, 3] [4, 5]).getD i 0| ≤
      (1e-6 : ℝ) * |(sliding_dot_product [1, 2, 3] [4, 5]).getD i 0| :=
  C1_fft_convolve_matches_direct [1, 2, 3] [4, 5] (by simp) (by simp)

end MPCore
